import Mathlib

/-!
# Verification of the table-allocation core

Shallow embedding of the resource-allocation engine of the repository: the
`Restaurant` / `Table` / `Customer` classes implemented in
`Library.cpp` (lines 75-137, the `Restaurant_Reservation_System` part) and
declared in `Restaurant.hpp`, together with the driver shape of `main.cpp`.

Modelling choices, from the source:

* `Table` (`Table.hpp` / README): fields `number : int`, `isAvailable : bool`.
  `Table.cpp` itself is not among the sources; its operations are modelled
  from the spec (§4.1) and the README of the project: `reserve()` clears the
  availability flag, `release()` sets it, a table is constructed free.
* `Customer`: a `name` plus an object identity `cid` standing for the
  `shared_ptr` control block, so that `weak_ptr` liveness can be expressed.
* `Restaurant` holds `tables` (a `std::vector<std::unique_ptr<Table>>`, here a
  `List Table`), `activeCustomers` (`shared_ptr`s, here a `List Customer`) and
  `waitlist` (`weak_ptr`s, here a `List Customer` whose entries own nothing:
  every use of an entry goes through a liveness check `isLive`).
* A `weak_ptr::lock()` succeeds exactly when some `shared_ptr` to the customer
  is still alive: either the surrounding application (parameter `ext` below,
  the driver's `shared_ptr`s as in `main.cpp`) or `activeCustomers` holds one.
* Console output is modelled by the inductive `Msg`, one constructor per
  `cout` line of the source; each operation returns its output messages.
* `removeElement` (the `weak_ptr` overload documented in the README:
  `remove_if` + `erase` with `owner_before` equality) is modelled at its one
  call site, `removeElement(waitlist, waitlist[0])`: the `ptr` parameter is
  bound by reference to slot 0 of the very vector `remove_if` compacts, so the
  predicate always compares against the current occupant of slot 0.  Entries
  owner-equal to the original head are dropped until the first surviving entry
  is shifted into slot 0; from then on the reference denotes that survivor, so
  the remaining entries are compared (and removed) against it instead — a
  later duplicate of the original head survives.
-/

/-- A restaurant table: `int number; bool isAvailable;` (`Table.hpp`). -/
structure Table where
  number : Int
  isAvailable : Bool
deriving DecidableEq

/-- Modelled from the spec: `Table.cpp` is absent from the sources; per §3/§4.1
a Resource is created once, free, with a fixed identity. -/
def Table.create (n : Int) : Table :=
  ⟨n, true⟩

/-- Modelled from the spec: `Table::reserve()` marks the table occupied. -/
def Table.reserve (t : Table) : Table :=
  { t with isAvailable := false }

/-- Modelled from the spec: `Table::release()` marks the table free. -/
def Table.free (t : Table) : Table :=
  { t with isAvailable := true }

/-- A customer: `std::string name` (`Customer.hpp`); `cid` models the identity
of the heap object / `shared_ptr` control block. -/
structure Customer where
  cid : Nat
  name : String
deriving DecidableEq

/-- One line of console output, one constructor per `cout` statement of
`Restaurant`'s member functions. -/
inductive Msg where
  | reserved (tableNo : Int) (customerName : String)
  | noTablesFree (customerName : String)
  | released (tableNo : Int)
  | alreadyFree (tableNo : Int)
  | waitlistHeader
  | waitingName (customerName : String)
deriving DecidableEq

/-- The allocator state: the three collections of `Restaurant.hpp`. -/
structure Restaurant where
  tables : List Table
  activeCustomers : List Customer
  waitlist : List Customer
deriving DecidableEq

/-- `Restaurant::Restaurant(int initialTableCount)`:
`for (int i = 1; i <= initialTableCount; i++) tables.push_back(make_unique<Table>(i));`
For a negative count the loop body never runs (`Int.toNat` of a negative
integer is `0`); there is no validation and no error path in the source. -/
def mkRestaurant (initialTableCount : Int) : Restaurant :=
  ⟨(List.range initialTableCount.toNat).map (fun i : Nat => Table.create ((i : Int) + 1)), [], []⟩

/-- `weak_ptr<Customer>::lock()` succeeds iff a `shared_ptr` to the same object
is still alive: held by the application (`ext`) or by `activeCustomers`. -/
def isLive (ext act : List Customer) (c : Customer) : Bool :=
  ext.any (fun d => d.cid == c.cid) || act.any (fun d => d.cid == c.cid)

/-- The scan loop of `Restaurant::reserveTable`: walk `tables` in order, on the
first available table call `reserve()` on it and report its number. -/
def grantFirst : List Table → Option (List Table × Int)
  | [] => none
  | t :: ts =>
    if t.isAvailable then some (t.reserve :: ts, t.number)
    else
      match grantFirst ts with
      | some (ts', n) => some (t :: ts', n)
      | none => none

/-- `Restaurant::reserveTable(shared_ptr<Customer>&)`: grant the first available
table and push the customer onto `activeCustomers` (returning `true`), else
append the customer to the `waitlist` (returning `false`). -/
def reserveTable (r : Restaurant) (c : Customer) : Restaurant × Bool × List Msg :=
  match grantFirst r.tables with
  | some (ts', n) =>
      (⟨ts', r.activeCustomers ++ [c], r.waitlist⟩, true, [Msg.reserved n c.name])
  | none =>
      (⟨r.tables, r.activeCustomers, r.waitlist ++ [c]⟩, false, [Msg.noTablesFree c.name])

/-- The call `removeElement(waitlist, waitlist[0])` of `notifyWaitlist`
(README: `remove_if`/`erase` with `owner_before` equality).  `ptr` aliases
slot 0 of the vector `remove_if` compacts: `find_if` matches slot 0 itself
(it is owner-equal to `*ptr`), then the scan drops the following entries
owner-equal to the head until the first survivor `x` is move-assigned into
slot 0; from that point `*ptr` denotes `x`, so the remaining entries are
compared against `x` — duplicates of `x` are removed while later duplicates
of the original head survive. -/
def removeElement (wl : List Customer) : List Customer :=
  match wl with
  | [] => []
  | h :: rest =>
    match rest.dropWhile (fun d => d.cid == h.cid) with
    | [] => []
    | x :: rest2 => x :: rest2.filter (fun d => d.cid != x.cid)

/-- `Restaurant::notifyWaitlist()`: if the waitlist is non-empty, `lock()` its
head; when the lock succeeds, call `reserveTable` on the revived customer and
then `removeElement(waitlist, waitlist[0])`; when it fails, do nothing —
in particular the stale entry is left in place. -/
def notifyWaitlist (ext : List Customer) (r : Restaurant) : Restaurant × List Msg :=
  match r.waitlist with
  | [] => (r, [])
  | c :: _ =>
    if isLive ext r.activeCustomers c then
      let res := reserveTable r c
      (⟨res.1.tables, res.1.activeCustomers, removeElement res.1.waitlist⟩, res.2.2)
    else (r, [])

/-- One iteration of the `releaseTable` loop, at table index `i` of the current
state: if the table's number matches, either release it and run
`notifyWaitlist` (occupied case) or report it as already free. -/
def releaseStep (ext : List Customer) (tableNumber : Int)
    (acc : Restaurant × List Msg) (i : Nat) : Restaurant × List Msg :=
  match acc.1.tables[i]? with
  | none => acc
  | some t =>
    if t.number == tableNumber then
      if t.isAvailable then
        (acc.1, acc.2 ++ [Msg.alreadyFree tableNumber])
      else
        let r1 : Restaurant := ⟨acc.1.tables.set i t.free, acc.1.activeCustomers, acc.1.waitlist⟩
        let res := notifyWaitlist ext r1
        (res.1, acc.2 ++ [Msg.released tableNumber] ++ res.2)
    else acc

/-- `Restaurant::releaseTable(int tableNumber)`: a range-for over the whole
`tables` vector (no early exit in the source), with `notifyWaitlist` invoked
in the middle of the iteration; the vector's length never changes, so the
iteration is over the indices of the original vector. A number matching no
table does nothing at all. -/
def releaseTable (ext : List Customer) (r : Restaurant) (tableNumber : Int) :
    Restaurant × List Msg :=
  (List.range r.tables.length).foldl (releaseStep ext tableNumber) (r, [])

/-- The revalidation loop body of `Restaurant::printWaitlist`: emit the name of
every entry whose `lock()` succeeds, in waitlist order. -/
def waitlistLines (ext act : List Customer) : List Customer → List Msg
  | [] => []
  | c :: cs =>
    if isLive ext act c then Msg.waitingName c.name :: waitlistLines ext act cs
    else waitlistLines ext act cs

/-- `Restaurant::printWaitlist()`: prints a header then the live entries' names;
the loop reads the state and never writes it, which the returned (unchanged)
state records. -/
def printWaitlist (ext : List Customer) (r : Restaurant) : Restaurant × List Msg :=
  (r, Msg.waitlistHeader :: waitlistLines ext r.activeCustomers r.waitlist)

/-- A driver-side harness (the shape of `main.cpp`): issue one `reserveTable`
call per listed customer, collecting each call's boolean result and output. -/
def runRequests (r : Restaurant) : List Customer → Restaurant × List (Bool × List Msg)
  | [] => (r, [])
  | c :: cs =>
    let res := reserveTable r c
    let rest := runRequests res.1 cs
    (rest.1, (res.2.1, res.2.2) :: rest.2)

/-- The whole system as seen from the driver: the allocator state, the
customers the application still owns a `shared_ptr` to (`ext`), and a counter
supplying fresh object identities. -/
structure World where
  ext : List Customer
  rest : Restaurant
  nextId : Nat

/-- The states reachable through the public call surface (§6): construction,
customer creation/destruction by the application, and `reserveTable` /
`releaseTable` / `printWaitlist` calls.  A `reserveTable` call requires the
application to hold the customer it passes. -/
inductive Reachable : World → Prop where
  | init (cap : Int) : Reachable ⟨[], mkRestaurant cap, 0⟩
  | create (w : World) (nm : String) : Reachable w →
      Reachable ⟨w.ext ++ [⟨w.nextId, nm⟩], w.rest, w.nextId + 1⟩
  | drop (w : World) (i : Nat) : Reachable w →
      Reachable ⟨w.ext.filter (fun c => c.cid != i), w.rest, w.nextId⟩
  | request (w : World) (c : Customer) : Reachable w → c ∈ w.ext →
      Reachable ⟨w.ext, (reserveTable w.rest c).1, w.nextId⟩
  | release (w : World) (n : Int) : Reachable w →
      Reachable ⟨w.ext, (releaseTable w.ext w.rest n).1, w.nextId⟩
  | listW (w : World) : Reachable w →
      Reachable ⟨w.ext, (printWaitlist w.ext w.rest).1, w.nextId⟩

/-- Number of occupied tables in a pool. -/
def occList (l : List Table) : Nat :=
  (l.filter (fun t => !t.isAvailable)).length

/-- Number of occupied tables of the allocator. -/
def occupiedCount (r : Restaurant) : Nat :=
  occList r.tables

/-- The identities `1..n` of a freshly built pool of `n` tables. -/
def poolIds (n : Nat) : List Int :=
  (List.range n).map (fun i : Nat => (i : Int) + 1)

/-- A pool shaped as the constructor builds it: numbers `1..len` in order.
Every reachable allocator state has a well-formed pool. -/
def WellFormedPool (r : Restaurant) : Prop :=
  r.tables.map Table.number = poolIds r.tables.length

/-- The pool of a capacity-`c` allocator after its first `k` grants: tables
`1..k` occupied, tables `k+1..c` free. -/
def occTables (c k : Nat) : List Table :=
  (List.range c).map (fun i : Nat => ⟨(i : Int) + 1, decide (k ≤ i)⟩)

/-- The request outcomes §8 of the spec predicts for a burst of fresh requests
against capacity `cap`, the next caller being the `k`-th: `Granted(k+1)` while
`k < cap`, `Queued` afterwards. -/
def specRequestOutcomes (cap : Nat) : Nat → List Customer → List (Bool × List Msg)
  | _, [] => []
  | k, c :: cs =>
    (if k < cap then (true, [Msg.reserved ((k : Int) + 1) c.name])
     else (false, [Msg.noTablesFree c.name])) :: specRequestOutcomes cap (k + 1) cs

/-! ## Lemmas about the grant scan -/

theorem grantFirst_eq_none {l : List Table} :
    grantFirst l = none ↔ ∀ t ∈ l, t.isAvailable = false := by
  induction l with
  | nil => simp [grantFirst]
  | cons t ts ih =>
    cases h : t.isAvailable with
    | true => simp [grantFirst, h]
    | false =>
      cases hg : grantFirst ts with
      | none =>
        simp only [grantFirst, h, Bool.false_eq_true, if_false, hg]
        simp only [List.mem_cons, true_iff]
        intro u hu
        rcases hu with rfl | hu
        · exact h
        · exact ih.mp hg u hu
      | some p =>
        obtain ⟨ts', n⟩ := p
        simp only [grantFirst, h, Bool.false_eq_true, if_false, hg]
        apply iff_of_false
        · simp
        · intro hall
          have : grantFirst ts = none := ih.mpr (fun u hu => hall u (List.mem_cons_of_mem t hu))
          rw [hg] at this
          exact Option.noConfusion this

theorem grantFirst_map_number {l l' : List Table} {n : Int}
    (h : grantFirst l = some (l', n)) :
    l'.map Table.number = l.map Table.number := by
  induction l generalizing l' with
  | nil => simp [grantFirst] at h
  | cons t ts ih =>
    cases ha : t.isAvailable with
    | true =>
      simp only [grantFirst, ha, if_true] at h
      obtain ⟨rfl, rfl⟩ : t.reserve :: ts = l' ∧ t.number = n := by
        constructor <;> [exact congrArg Prod.fst (Option.some.inj h); exact congrArg Prod.snd (Option.some.inj h)]
      simp [Table.reserve]
    | false =>
      simp only [grantFirst, ha, Bool.false_eq_true, if_false] at h
      cases hg : grantFirst ts with
      | none => rw [hg] at h; exact Option.noConfusion h
      | some p =>
        obtain ⟨ts', m⟩ := p
        rw [hg] at h
        obtain ⟨rfl, rfl⟩ : t :: ts' = l' ∧ m = n := by
          constructor <;> [exact congrArg Prod.fst (Option.some.inj h); exact congrArg Prod.snd (Option.some.inj h)]
        simp [ih hg]

theorem grantFirst_length {l l' : List Table} {n : Int}
    (h : grantFirst l = some (l', n)) : l'.length = l.length := by
  have := congrArg List.length (grantFirst_map_number h)
  simpa using this

theorem grantFirst_occ {l l' : List Table} {n : Int}
    (h : grantFirst l = some (l', n)) : occList l' = occList l + 1 := by
  induction l generalizing l' with
  | nil => simp [grantFirst] at h
  | cons t ts ih =>
    cases ha : t.isAvailable with
    | true =>
      simp only [grantFirst, ha, if_true] at h
      obtain ⟨rfl, rfl⟩ : t.reserve :: ts = l' ∧ t.number = n := by
        constructor <;> [exact congrArg Prod.fst (Option.some.inj h); exact congrArg Prod.snd (Option.some.inj h)]
      simp [occList, Table.reserve, ha, Nat.add_comm]
    | false =>
      simp only [grantFirst, ha, Bool.false_eq_true, if_false] at h
      cases hg : grantFirst ts with
      | none => rw [hg] at h; exact Option.noConfusion h
      | some p =>
        obtain ⟨ts', m⟩ := p
        rw [hg] at h
        obtain ⟨rfl, rfl⟩ : t :: ts' = l' ∧ m = n := by
          constructor <;> [exact congrArg Prod.fst (Option.some.inj h); exact congrArg Prod.snd (Option.some.inj h)]
        simp only [occList, List.filter_cons, ha]
        simpa [occList] using ih hg

theorem Table.free_reserve_of_occupied {t : Table} (h : t.isAvailable = false) :
    t.free.reserve = t := by
  cases t with
  | mk n b =>
    cases h
    rfl

theorem List.set_self_of_getElem {α : Type} {l : List α} {i : Nat} {x : α}
    (h : l[i]? = some x) : l.set i x = l := by
  induction l generalizing i with
  | nil => simp at h
  | cons a as ih =>
    cases i with
    | zero =>
      simp only [List.getElem?_cons_zero, Option.some.injEq] at h
      simp [h]
    | succ j =>
      simp only [List.getElem?_cons_succ] at h
      simp [ih h]

theorem mem_of_getElem_some {α : Type} {l : List α} {i : Nat} {a : α}
    (h : l[i]? = some a) : a ∈ l := by
  obtain ⟨hi, rfl⟩ := List.getElem?_eq_some.mp h
  exact List.getElem_mem hi

theorem grantFirst_spec {l l' : List Table} {n : Int}
    (h : grantFirst l = some (l', n)) :
    ∃ i t, l[i]? = some t ∧ t.isAvailable = true ∧
      (∀ j u, j < i → l[j]? = some u → u.isAvailable = false) ∧
      l' = l.set i t.reserve ∧ n = t.number := by
  induction l generalizing l' n with
  | nil => simp [grantFirst] at h
  | cons t ts ih =>
    cases ha : t.isAvailable with
    | true =>
      simp only [grantFirst, ha, if_true] at h
      refine ⟨0, t, by simp, ha, ?_, ?_, ?_⟩
      · intro j u hj
        omega
      · have := congrArg Prod.fst (Option.some.inj h)
        simp at this
        simp [← this]
      · have := congrArg Prod.snd (Option.some.inj h)
        simpa using this.symm
    | false =>
      simp only [grantFirst, ha, Bool.false_eq_true, if_false] at h
      cases hg : grantFirst ts with
      | none => rw [hg] at h; exact Option.noConfusion h
      | some p =>
        obtain ⟨ts', m⟩ := p
        rw [hg] at h
        obtain ⟨i, u, hu, hav, hbefore, hset, hn⟩ := ih hg
        have h1 : t :: ts' = l' := congrArg Prod.fst (Option.some.inj h)
        have h2 : m = n := congrArg Prod.snd (Option.some.inj h)
        refine ⟨i + 1, u, by simpa using hu, hav, ?_, ?_, ?_⟩
        · intro j v hj hv
          cases j with
          | zero =>
            simp only [List.getElem?_cons_zero, Option.some.injEq] at hv
            rw [← hv]
            exact ha
          | succ k =>
            simp only [List.getElem?_cons_succ] at hv
            exact hbefore k v (by omega) hv
        · rw [← h1, hset]
          rfl
        · rw [← h2, hn]

theorem grantFirst_at {l : List Table} {i : Nat} {t : Table}
    (h : l[i]? = some t) (hav : t.isAvailable = true)
    (hbefore : ∀ j u, j < i → l[j]? = some u → u.isAvailable = false) :
    grantFirst l = some (l.set i t.reserve, t.number) := by
  induction l generalizing i with
  | nil => simp at h
  | cons a as ih =>
    cases i with
    | zero =>
      simp only [List.getElem?_cons_zero, Option.some.injEq] at h
      subst h
      simp [grantFirst, hav]
    | succ j =>
      simp only [List.getElem?_cons_succ] at h
      have ha : a.isAvailable = false :=
        hbefore 0 a (Nat.succ_pos j) (by simp)
      have : grantFirst as = some (as.set j t.reserve, t.number) := by
        apply ih h
        intro k u hk hu
        exact hbefore (k + 1) u (by omega) (by simpa using hu)
      simp [grantFirst, ha, this]

theorem grantFirst_all_occupied_set {l : List Table} {i : Nat} {t : Table}
    (hall : ∀ u ∈ l, u.isAvailable = false) (h : l[i]? = some t) :
    grantFirst (l.set i t.free) = some (l, t.number) := by
  have hocc : t.isAvailable = false :=
    hall t (mem_of_getElem_some h)
  have hi : i < l.length := (List.getElem?_eq_some.mp h).1
  have hget : (l.set i t.free)[i]? = some t.free := by
    rw [List.getElem?_set_self]
    simpa using hi
  have hb : ∀ j u, j < i → (l.set i t.free)[j]? = some u → u.isAvailable = false := by
    intro j u hj hu
    have hji : i ≠ j := by omega
    rw [List.getElem?_set_ne hji] at hu
    exact hall u (mem_of_getElem_some hu)
  have hres := grantFirst_at hget (by simp [Table.free]) hb
  rw [hres, List.set_set, Table.free_reserve_of_occupied hocc,
    List.set_self_of_getElem h]
  rfl

theorem occList_set_free {l : List Table} {i : Nat} {t : Table}
    (h : l[i]? = some t) (hocc : t.isAvailable = false) :
    occList (l.set i t.free) + 1 = occList l := by
  induction l generalizing i with
  | nil => simp at h
  | cons a as ih =>
    cases i with
    | zero =>
      simp only [List.getElem?_cons_zero, Option.some.injEq] at h
      subst h
      simp [occList, List.filter_cons, Table.free, hocc]
    | succ j =>
      simp only [List.getElem?_cons_succ] at h
      have := ih h
      cases hb : a.isAvailable with
      | true => simpa [occList, List.filter_cons, hb] using this
      | false =>
        simp only [List.set_cons_succ, occList, List.filter_cons, hb]
        simp only [occList] at this
        simp only [Bool.not_false, if_true, List.length_cons]
        omega

/-! ## Unfolding lemmas for the operations -/

theorem reserveTable_grant {r : Restaurant} {c : Customer} {ts' : List Table} {n : Int}
    (h : grantFirst r.tables = some (ts', n)) :
    reserveTable r c =
      (⟨ts', r.activeCustomers ++ [c], r.waitlist⟩, true, [Msg.reserved n c.name]) := by
  simp [reserveTable, h]

theorem reserveTable_queue {r : Restaurant} {c : Customer}
    (h : grantFirst r.tables = none) :
    reserveTable r c =
      (⟨r.tables, r.activeCustomers, r.waitlist ++ [c]⟩, false, [Msg.noTablesFree c.name]) := by
  simp [reserveTable, h]

theorem reserveTable_map_number (r : Restaurant) (c : Customer) :
    ((reserveTable r c).1).tables.map Table.number = r.tables.map Table.number := by
  cases hg : grantFirst r.tables with
  | none => simp [reserveTable, hg]
  | some p =>
    obtain ⟨ts', n⟩ := p
    simp [reserveTable, hg, grantFirst_map_number hg]

theorem notifyWaitlist_nil {ext : List Customer} {r : Restaurant}
    (h : r.waitlist = []) : notifyWaitlist ext r = (r, []) := by
  simp [notifyWaitlist, h]

theorem notifyWaitlist_dead {ext : List Customer} {r : Restaurant} {c : Customer}
    {cs : List Customer} (h : r.waitlist = c :: cs)
    (hd : isLive ext r.activeCustomers c = false) :
    notifyWaitlist ext r = (r, []) := by
  simp [notifyWaitlist, h, hd]

theorem notifyWaitlist_grant {ext : List Customer} {r : Restaurant} {c : Customer}
    {cs : List Customer} {ts' : List Table} {n : Int}
    (h : r.waitlist = c :: cs) (hl : isLive ext r.activeCustomers c = true)
    (hg : grantFirst r.tables = some (ts', n)) :
    notifyWaitlist ext r =
      (⟨ts', r.activeCustomers ++ [c], removeElement (c :: cs)⟩,
       [Msg.reserved n c.name]) := by
  simp [notifyWaitlist, h, hl, reserveTable, hg]

theorem notifyWaitlist_queue {ext : List Customer} {r : Restaurant} {c : Customer}
    {cs : List Customer} (h : r.waitlist = c :: cs)
    (hl : isLive ext r.activeCustomers c = true)
    (hg : grantFirst r.tables = none) :
    notifyWaitlist ext r =
      (⟨r.tables, r.activeCustomers, removeElement ((c :: cs) ++ [c])⟩,
       [Msg.noTablesFree c.name]) := by
  simp [notifyWaitlist, h, hl, reserveTable, hg]

theorem removeElement_sublist_tail (c : Customer) (cs : List Customer) :
    List.Sublist (removeElement (c :: cs)) cs := by
  show List.Sublist
    (match cs.dropWhile (fun d => d.cid == c.cid) with
      | [] => []
      | x :: rest2 => x :: rest2.filter (fun d => d.cid != x.cid)) cs
  cases hdw : cs.dropWhile (fun d => d.cid == c.cid) with
  | nil => exact List.nil_sublist cs
  | cons x rest2 =>
    have h1 : List.Sublist (x :: rest2.filter (fun d => d.cid != x.cid)) (x :: rest2) :=
      List.Sublist.cons₂ x (List.filter_sublist rest2)
    have h2 : List.Sublist (x :: rest2) cs := by
      rw [← hdw]
      exact List.dropWhile_sublist _
    exact h1.trans h2

theorem notifyWaitlist_active (ext : List Customer) (r : Restaurant) :
    ∃ ex, (notifyWaitlist ext r).1.activeCustomers = r.activeCustomers ++ ex := by
  cases h : r.waitlist with
  | nil => exact ⟨[], by rw [notifyWaitlist_nil h]; simp⟩
  | cons c cs =>
    cases hl : isLive ext r.activeCustomers c with
    | false => exact ⟨[], by rw [notifyWaitlist_dead h hl]; simp⟩
    | true =>
      cases hg : grantFirst r.tables with
      | none => exact ⟨[], by rw [notifyWaitlist_queue h hl hg]; simp⟩
      | some p =>
        obtain ⟨ts', n⟩ := p
        exact ⟨[c], by rw [notifyWaitlist_grant h hl hg]⟩

theorem notifyWaitlist_map_number (ext : List Customer) (r : Restaurant) :
    ((notifyWaitlist ext r).1).tables.map Table.number = r.tables.map Table.number := by
  cases h : r.waitlist with
  | nil => rw [notifyWaitlist_nil h]
  | cons c cs =>
    cases hl : isLive ext r.activeCustomers c with
    | false => rw [notifyWaitlist_dead h hl]
    | true =>
      cases hg : grantFirst r.tables with
      | none => rw [notifyWaitlist_queue h hl hg]
      | some p =>
        obtain ⟨ts', n⟩ := p
        rw [notifyWaitlist_grant h hl hg]
        exact grantFirst_map_number hg

theorem set_free_map_number {l : List Table} {i : Nat} {t : Table}
    (h : l[i]? = some t) :
    (l.set i t.free).map Table.number = l.map Table.number := by
  rw [List.map_set]
  have : Table.number t.free = t.number := rfl
  rw [this]
  apply List.set_self_of_getElem
  rw [List.getElem?_map, h]
  rfl

theorem map_number_getElem {l l' : List Table}
    (hmap : l'.map Table.number = l.map Table.number) {j : Nat} {u : Table}
    (hu : l'[j]? = some u) : ∃ v, l[j]? = some v ∧ v.number = u.number := by
  have h1 : (l'.map Table.number)[j]? = some u.number := by
    rw [List.getElem?_map, hu]
    rfl
  rw [hmap, List.getElem?_map] at h1
  cases hv : l[j]? with
  | none => rw [hv] at h1; simp at h1
  | some v =>
    rw [hv] at h1
    exact ⟨v, rfl, by simpa using h1⟩

theorem nodup_number_ne {l : List Table} (hnd : (l.map Table.number).Nodup)
    {i j : Nat} {t u : Table} (hi : l[i]? = some t) (hj : l[j]? = some u)
    (hij : i ≠ j) : u.number ≠ t.number := by
  obtain ⟨hi', hit⟩ := List.getElem?_eq_some.mp hi
  obtain ⟨hj', hju⟩ := List.getElem?_eq_some.mp hj
  have him : i < (l.map Table.number).length := by simpa using hi'
  have hjm : j < (l.map Table.number).length := by simpa using hj'
  have hinj := List.nodup_iff_injective_get.mp hnd
  intro hcon
  have heq : (l.map Table.number).get ⟨i, him⟩ = (l.map Table.number).get ⟨j, hjm⟩ := by
    simp only [List.get_eq_getElem, List.getElem_map]
    rw [hit, hju, hcon]
  have := hinj heq
  have : i = j := congrArg Fin.val this
  omega

/-! ## The `releaseTable` loop -/

theorem releaseStep_no_match {ext : List Customer} {n : Int}
    {acc : Restaurant × List Msg} {i : Nat}
    (h : ∀ t, acc.1.tables[i]? = some t → (t.number == n) = false) :
    releaseStep ext n acc i = acc := by
  cases ht : acc.1.tables[i]? with
  | none => simp [releaseStep, ht]
  | some t => simp [releaseStep, ht, h t ht]

theorem foldl_releaseStep_id {ext : List Customer} {n : Int} :
    ∀ (idxs : List Nat) (r : Restaurant) (ms : List Msg),
    (∀ j ∈ idxs, ∀ t, r.tables[j]? = some t → (t.number == n) = false) →
    idxs.foldl (releaseStep ext n) (r, ms) = (r, ms) := by
  intro idxs
  induction idxs with
  | nil =>
    intro r ms _
    rfl
  | cons j js ih =>
    intro r ms h
    rw [List.foldl_cons,
      releaseStep_no_match (fun t ht => h j (List.mem_cons_self j js) t ht)]
    exact ih r ms (fun k hk t ht => h k (List.mem_cons_of_mem j hk) t ht)

theorem range_split {len i : Nat} (h : i < len) :
    List.range len = List.range' 0 i ++ i :: List.range' (i + 1) (len - i - 1) := by
  have h3 : List.range' 0 i ++ List.range' i (len - i) = List.range' 0 len := by
    have happ := List.range'_append 0 i (len - i) 1
    simp only [Nat.one_mul, Nat.zero_add] at happ
    rw [happ]
    congr 1
    omega
  have h2 : len - i = (len - i - 1) + 1 := by omega
  rw [List.range_eq_range', ← h3, h2, List.range'_succ]
  have h4 : len - i - 1 + 1 - 1 = len - i - 1 := by omega
  rw [h4]

theorem releaseTable_no_match {ext : List Customer} {r : Restaurant} {n : Int}
    (h : ∀ t ∈ r.tables, t.number ≠ n) :
    releaseTable ext r n = (r, []) := by
  show (List.range r.tables.length).foldl (releaseStep ext n) (r, []) = (r, [])
  apply foldl_releaseStep_id
  intro j _ t ht
  exact beq_eq_false_iff_ne.mpr (h t (mem_of_getElem_some ht))

theorem releaseTable_found_free {ext : List Customer} {r : Restaurant} {n : Int}
    {i : Nat} {t : Table} (hnd : (r.tables.map Table.number).Nodup)
    (hi : r.tables[i]? = some t) (hn : t.number = n) (hav : t.isAvailable = true) :
    releaseTable ext r n = (r, [Msg.alreadyFree n]) := by
  have hlen : i < r.tables.length := (List.getElem?_eq_some.mp hi).1
  have hpre : (List.range' 0 i).foldl (releaseStep ext n) (r, []) = (r, []) := by
    apply foldl_releaseStep_id
    intro j hj u hu
    have hj' : j < i := by
      have := List.mem_range'_1.mp hj
      omega
    refine beq_eq_false_iff_ne.mpr ?_
    have := nodup_number_ne hnd hi hu (by omega)
    rw [hn] at this
    exact this
  have hstep : releaseStep ext n (r, []) i = (r, [Msg.alreadyFree n]) := by
    simp [releaseStep, hi, hn, hav]
  have hpost : (List.range' (i + 1) (r.tables.length - i - 1)).foldl
      (releaseStep ext n) (r, [Msg.alreadyFree n]) = (r, [Msg.alreadyFree n]) := by
    apply foldl_releaseStep_id
    intro j hj u hu
    have hj' : i + 1 ≤ j := (List.mem_range'_1.mp hj).1
    refine beq_eq_false_iff_ne.mpr ?_
    have := nodup_number_ne hnd hi hu (by omega)
    rw [hn] at this
    exact this
  show (List.range r.tables.length).foldl (releaseStep ext n) (r, []) = _
  rw [range_split hlen, List.foldl_append, hpre, List.foldl_cons, hstep, hpost]

theorem releaseTable_found_occupied {ext : List Customer} {r : Restaurant} {n : Int}
    {i : Nat} {t : Table} (hnd : (r.tables.map Table.number).Nodup)
    (hi : r.tables[i]? = some t) (hn : t.number = n) (hocc : t.isAvailable = false) :
    releaseTable ext r n =
      ((notifyWaitlist ext ⟨r.tables.set i t.free, r.activeCustomers, r.waitlist⟩).1,
       Msg.released n ::
         (notifyWaitlist ext ⟨r.tables.set i t.free, r.activeCustomers, r.waitlist⟩).2) := by
  have hlen : i < r.tables.length := (List.getElem?_eq_some.mp hi).1
  have hpre : (List.range' 0 i).foldl (releaseStep ext n) (r, []) = (r, []) := by
    apply foldl_releaseStep_id
    intro j hj u hu
    have hj' : j < i := by
      have := List.mem_range'_1.mp hj
      omega
    refine beq_eq_false_iff_ne.mpr ?_
    have := nodup_number_ne hnd hi hu (by omega)
    rw [hn] at this
    exact this
  have hstep : releaseStep ext n (r, []) i =
      ((notifyWaitlist ext ⟨r.tables.set i t.free, r.activeCustomers, r.waitlist⟩).1,
       Msg.released n ::
         (notifyWaitlist ext ⟨r.tables.set i t.free, r.activeCustomers, r.waitlist⟩).2) := by
    simp [releaseStep, hi, hn, hocc]
  have hmap : ((notifyWaitlist ext
        ⟨r.tables.set i t.free, r.activeCustomers, r.waitlist⟩).1).tables.map Table.number
      = r.tables.map Table.number := by
    rw [notifyWaitlist_map_number]
    exact set_free_map_number hi
  have hpost : (List.range' (i + 1) (r.tables.length - i - 1)).foldl
      (releaseStep ext n)
      ((notifyWaitlist ext ⟨r.tables.set i t.free, r.activeCustomers, r.waitlist⟩).1,
       Msg.released n ::
         (notifyWaitlist ext ⟨r.tables.set i t.free, r.activeCustomers, r.waitlist⟩).2)
      = ((notifyWaitlist ext ⟨r.tables.set i t.free, r.activeCustomers, r.waitlist⟩).1,
       Msg.released n ::
         (notifyWaitlist ext ⟨r.tables.set i t.free, r.activeCustomers, r.waitlist⟩).2) := by
    apply foldl_releaseStep_id
    intro j hj u hu
    have hj' : i + 1 ≤ j := (List.mem_range'_1.mp hj).1
    obtain ⟨v, hv, hvn⟩ := map_number_getElem hmap hu
    refine beq_eq_false_iff_ne.mpr ?_
    have := nodup_number_ne hnd hi hv (by omega)
    rw [hn, hvn] at this
    exact this
  show (List.range r.tables.length).foldl (releaseStep ext n) (r, []) = _
  rw [range_split hlen, List.foldl_append, hpre, List.foldl_cons, hstep, hpost]

theorem releaseStep_map_number (ext : List Customer) (n : Int)
    (acc : Restaurant × List Msg) (i : Nat) :
    ((releaseStep ext n acc i).1).tables.map Table.number
      = (acc.1).tables.map Table.number := by
  cases ht : acc.1.tables[i]? with
  | none => simp [releaseStep, ht]
  | some t =>
    by_cases hb : (t.number == n) = true
    · cases hav : t.isAvailable with
      | true => simp [releaseStep, ht, hb, hav]
      | false =>
        simp only [releaseStep, ht, hb, hav, Bool.false_eq_true, if_false, if_true]
        rw [notifyWaitlist_map_number]
        exact set_free_map_number ht
    · simp [releaseStep, ht, hb]

theorem foldl_releaseStep_map_number (ext : List Customer) (n : Int) :
    ∀ (idxs : List Nat) (acc : Restaurant × List Msg),
    (((idxs.foldl (releaseStep ext n) acc).1).tables.map Table.number)
      = (acc.1).tables.map Table.number := by
  intro idxs
  induction idxs with
  | nil =>
    intro acc
    rfl
  | cons j js ih =>
    intro acc
    rw [List.foldl_cons, ih, releaseStep_map_number]

theorem releaseTable_map_number (ext : List Customer) (r : Restaurant) (n : Int) :
    (((releaseTable ext r n).1).tables.map Table.number) = r.tables.map Table.number :=
  foldl_releaseStep_map_number ext n (List.range r.tables.length) (r, [])

/-! ## Liveness bookkeeping -/

theorem isLive_ext_snoc (ext act : List Customer) (c d : Customer) :
    isLive (ext ++ [d]) act c = (isLive ext act c || (d.cid == c.cid)) := by
  simp [isLive, List.any_append, Bool.or_comm, Bool.or_assoc, Bool.or_left_comm]

theorem isLive_act_snoc (ext act : List Customer) (c d : Customer) :
    isLive ext (act ++ [d]) c = (isLive ext act c || (d.cid == c.cid)) := by
  simp [isLive, List.any_append, Bool.or_comm, Bool.or_assoc, Bool.or_left_comm]

theorem isLive_of_isLive_filter {p : Customer → Bool} {ext act : List Customer}
    {c : Customer} (h : isLive (ext.filter p) act c = true) :
    isLive ext act c = true := by
  simp only [isLive, Bool.or_eq_true, List.any_eq_true] at h ⊢
  rcases h with ⟨d, hd, hp⟩ | h
  · exact Or.inl ⟨d, List.mem_of_mem_filter hd, hp⟩
  · exact Or.inr h

theorem isLive_of_mem_ext {ext act : List Customer} {c d : Customer}
    (hd : d ∈ ext) (hcd : d.cid = c.cid) : isLive ext act c = true := by
  simp only [isLive, Bool.or_eq_true, List.any_eq_true]
  exact Or.inl ⟨d, hd, by simp [hcd]⟩

/-! ## The inductive invariant of reachable worlds -/

theorem poolIds_nodup (n : Nat) : (poolIds n).Nodup := by
  have hinj : Function.Injective (fun i : Nat => (i : Int) + 1) := by
    intro a b hab
    simpa using hab
  exact List.Nodup.map hinj (List.nodup_range n)

theorem wf_nodup {r : Restaurant} (h : WellFormedPool r) :
    (r.tables.map Table.number).Nodup := by
  rw [h]
  exact poolIds_nodup _

/-- The inductive invariant of reachable worlds.
`wf`: the pool looks as the constructor built it (numbers `1..len` in order);
`occLe`: at most as many tables are occupied as there are holders;
`headLive`: a live waitlist head forces a fully occupied pool (a customer is
only queued when no table is free, and every release immediately serves a live
head);
`fresh`: every customer identity in circulation is below the id counter. -/
structure ReachInv (w : World) : Prop where
  wf : WellFormedPool w.rest
  occLe : occupiedCount w.rest ≤ w.rest.activeCustomers.length
  headLive : ∀ c cs, w.rest.waitlist = c :: cs →
      isLive w.ext w.rest.activeCustomers c = true →
      ∀ t ∈ w.rest.tables, t.isAvailable = false
  fresh : ∀ c, c ∈ w.ext ∨ c ∈ w.rest.activeCustomers ∨ c ∈ w.rest.waitlist →
      c.cid < w.nextId

theorem occList_eq_zero {l : List Table} (h : ∀ t ∈ l, t.isAvailable = true) :
    occList l = 0 := by
  simp only [occList, List.length_eq_zero]
  rw [List.filter_eq_nil_iff]
  intro t ht
  simp [h t ht]

theorem inv_init (cap : Int) : ReachInv ⟨[], mkRestaurant cap, 0⟩ := by
  refine ⟨?_, ?_, ?_, ?_⟩
  · simp only [WellFormedPool, mkRestaurant, poolIds, List.map_map, List.length_map,
      List.length_range]
    rfl
  · have : occupiedCount (mkRestaurant cap) = 0 := by
      apply occList_eq_zero
      intro t ht
      simp only [mkRestaurant, List.mem_map] at ht
      obtain ⟨j, _, rfl⟩ := ht
      rfl
    simp [this]
  · intro c cs hwl
    simp [mkRestaurant] at hwl
  · intro c hc
    simp [mkRestaurant] at hc

theorem inv_create {w : World} (h : ReachInv w) (nm : String) :
    ReachInv ⟨w.ext ++ [⟨w.nextId, nm⟩], w.rest, w.nextId + 1⟩ := by
  refine ⟨h.wf, h.occLe, ?_, ?_⟩
  · intro c cs hwl hl
    rw [isLive_ext_snoc] at hl
    rcases Bool.or_eq_true_iff.mp hl with hl' | hl'
    · exact h.headLive c cs hwl hl'
    · exfalso
      have hcm : c ∈ w.rest.waitlist := by
        rw [hwl]
        exact List.mem_cons_self c cs
      have := h.fresh c (Or.inr (Or.inr hcm))
      have : w.nextId = c.cid := by simpa using hl'
      omega
  · intro c hc
    show c.cid < w.nextId + 1
    rcases hc with hc | hc
    · rcases List.mem_append.mp hc with hc | hc
      · have := h.fresh c (Or.inl hc)
        omega
      · have hce : c = ⟨w.nextId, nm⟩ := by simpa using hc
        have : c.cid = w.nextId := by rw [hce]
        omega
    · have := h.fresh c (Or.inr hc)
      omega

theorem inv_drop {w : World} (h : ReachInv w) (i : Nat) :
    ReachInv ⟨w.ext.filter (fun c => c.cid != i), w.rest, w.nextId⟩ := by
  refine ⟨h.wf, h.occLe, ?_, ?_⟩
  · intro c cs hwl hl
    exact h.headLive c cs hwl (isLive_of_isLive_filter hl)
  · intro c hc
    apply h.fresh
    rcases hc with hc | hc
    · exact Or.inl (List.mem_of_mem_filter hc)
    · exact Or.inr hc

theorem inv_request {w : World} (h : ReachInv w) {c : Customer} (hc : c ∈ w.ext) :
    ReachInv ⟨w.ext, (reserveTable w.rest c).1, w.nextId⟩ := by
  cases hg : grantFirst w.rest.tables with
  | some p =>
    obtain ⟨ts', n⟩ := p
    rw [reserveTable_grant hg]
    refine ⟨?_, ?_, ?_, ?_⟩
    · show ts'.map Table.number = poolIds ts'.length
      rw [grantFirst_map_number hg, grantFirst_length hg]
      exact h.wf
    · show occList ts' ≤ (w.rest.activeCustomers ++ [c]).length
      rw [grantFirst_occ hg, List.length_append]
      have h1 := h.occLe
      simp only [occupiedCount] at h1
      simp only [List.length_cons, List.length_nil]
      omega
    · intro ch cs hwl hl
      exfalso
      rw [isLive_act_snoc] at hl
      rcases Bool.or_eq_true_iff.mp hl with hl' | hl'
      · have hall := h.headLive ch cs hwl hl'
        have hnone : grantFirst w.rest.tables = none := grantFirst_eq_none.mpr hall
        rw [hg] at hnone
        exact Option.noConfusion hnone
      · have hcid : c.cid = ch.cid := by simpa using hl'
        have hlive : isLive w.ext w.rest.activeCustomers ch = true :=
          isLive_of_mem_ext hc hcid
        have hall := h.headLive ch cs hwl hlive
        have hnone : grantFirst w.rest.tables = none := grantFirst_eq_none.mpr hall
        rw [hg] at hnone
        exact Option.noConfusion hnone
    · intro d hd
      apply h.fresh
      rcases hd with hd | hd | hd
      · exact Or.inl hd
      · rcases List.mem_append.mp hd with hd | hd
        · exact Or.inr (Or.inl hd)
        · have hdc : d = c := by simpa using hd
          rw [hdc]
          exact Or.inl hc
      · exact Or.inr (Or.inr hd)
  | none =>
    rw [reserveTable_queue hg]
    refine ⟨h.wf, h.occLe, ?_, ?_⟩
    · intro ch cs hwl hl
      exact grantFirst_eq_none.mp hg
    · intro d hd
      rcases hd with hd | hd | hd
      · exact h.fresh d (Or.inl hd)
      · exact h.fresh d (Or.inr (Or.inl hd))
      · rcases List.mem_append.mp hd with hd | hd
        · exact h.fresh d (Or.inr (Or.inr hd))
        · have hdc : d = c := by simpa using hd
          rw [hdc]
          exact h.fresh c (Or.inl hc)

theorem inv_release {w : World} (h : ReachInv w) (n : Int) :
    ReachInv ⟨w.ext, (releaseTable w.ext w.rest n).1, w.nextId⟩ := by
  by_cases hex : ∃ (i : Nat) (t : Table), w.rest.tables[i]? = some t ∧ t.number = n
  · obtain ⟨i, t, hi, hn⟩ := hex
    cases hav : t.isAvailable with
    | true =>
      rw [releaseTable_found_free (wf_nodup h.wf) hi hn hav]
      exact ⟨h.wf, h.occLe, h.headLive, h.fresh⟩
    | false =>
      rw [releaseTable_found_occupied (wf_nodup h.wf) hi hn hav]
      cases hwl : w.rest.waitlist with
      | nil =>
        rw [@notifyWaitlist_nil w.ext
          ⟨w.rest.tables.set i t.free, w.rest.activeCustomers, []⟩ rfl]
        refine ⟨?_, ?_, ?_, ?_⟩
        · show (w.rest.tables.set i t.free).map Table.number
            = poolIds (w.rest.tables.set i t.free).length
          rw [set_free_map_number hi, List.length_set]
          exact h.wf
        · show occList (w.rest.tables.set i t.free) ≤ w.rest.activeCustomers.length
          have h1 := occList_set_free hi hav
          have h2 := h.occLe
          simp only [occupiedCount] at h2
          omega
        · intro ch cs hwl'
          simp at hwl'
        · intro d hd
          apply h.fresh
          rcases hd with hd | hd | hd
          · exact Or.inl hd
          · exact Or.inr (Or.inl hd)
          · simp at hd
      | cons ch cs =>
        cases hl : isLive w.ext w.rest.activeCustomers ch with
        | false =>
          rw [@notifyWaitlist_dead w.ext
            ⟨w.rest.tables.set i t.free, w.rest.activeCustomers, ch :: cs⟩ ch cs rfl hl]
          refine ⟨?_, ?_, ?_, ?_⟩
          · show (w.rest.tables.set i t.free).map Table.number
              = poolIds (w.rest.tables.set i t.free).length
            rw [set_free_map_number hi, List.length_set]
            exact h.wf
          · show occList (w.rest.tables.set i t.free) ≤ w.rest.activeCustomers.length
            have h1 := occList_set_free hi hav
            have h2 := h.occLe
            simp only [occupiedCount] at h2
            omega
          · intro ch' cs' hwl' hl'
            exfalso
            have hcc : ch :: cs = ch' :: cs' := hwl'
            obtain ⟨rfl, rfl⟩ : ch = ch' ∧ cs = cs' := by
              constructor <;> [exact ((List.cons.injEq ch cs ch' cs').mp hcc).1;
                exact ((List.cons.injEq ch cs ch' cs').mp hcc).2]
            have hl'' : isLive w.ext w.rest.activeCustomers ch = true := hl'
            rw [hl] at hl''
            exact Bool.false_ne_true hl''
          · intro d hd
            apply h.fresh
            rcases hd with hd | hd | hd
            · exact Or.inl hd
            · exact Or.inr (Or.inl hd)
            · refine Or.inr (Or.inr ?_)
              rw [hwl]
              exact hd
        | true =>
          have hall := h.headLive ch cs hwl hl
          have hg : grantFirst (w.rest.tables.set i t.free)
              = some (w.rest.tables, t.number) :=
            grantFirst_all_occupied_set hall hi
          rw [@notifyWaitlist_grant w.ext
            ⟨w.rest.tables.set i t.free, w.rest.activeCustomers, ch :: cs⟩
            ch cs w.rest.tables t.number rfl hl hg]
          refine ⟨h.wf, ?_, ?_, ?_⟩
          · show occList w.rest.tables ≤ (w.rest.activeCustomers ++ [ch]).length
            have h2 := h.occLe
            simp only [occupiedCount] at h2
            rw [List.length_append]
            simp only [List.length_cons, List.length_nil]
            omega
          · intro ch' cs' hwl' hl'
            exact hall
          · intro d hd
            apply h.fresh
            rcases hd with hd | hd | hd
            · exact Or.inl hd
            · rcases List.mem_append.mp hd with hd | hd
              · exact Or.inr (Or.inl hd)
              · have hdc : d = ch := by simpa using hd
                rw [hdc, hwl]
                exact Or.inr (Or.inr (List.mem_cons_self ch cs))
            · have : d ∈ cs := (removeElement_sublist_tail ch cs).subset hd
              rw [hwl]
              exact Or.inr (Or.inr (List.mem_cons_of_mem ch this))
  · have hno : ∀ t ∈ w.rest.tables, t.number ≠ n := by
      intro t ht hcon
      obtain ⟨j, hj, hjt⟩ := List.mem_iff_getElem.mp ht
      exact hex ⟨j, t, by rw [List.getElem?_eq_getElem hj, hjt], hcon⟩
    rw [releaseTable_no_match hno]
    exact ⟨h.wf, h.occLe, h.headLive, h.fresh⟩

/-- Every reachable world satisfies the inductive invariant. -/
theorem reachable_inv {w : World} (h : Reachable w) : ReachInv w := by
  induction h with
  | init cap => exact inv_init cap
  | create w nm _ ih => exact inv_create ih nm
  | drop w i _ ih => exact inv_drop ih i
  | request w c _ hc ih => exact inv_request ih hc
  | release w n _ ih => exact inv_release ih n
  | listW w _ ih => exact ⟨ih.wf, ih.occLe, ih.headLive, ih.fresh⟩

/-! ## Bursts of fresh requests (spec §8) -/

theorem mkRestaurant_tables_nat (cap : Nat) :
    (mkRestaurant (cap : Int)).tables = occTables cap 0 := by
  simp only [mkRestaurant, occTables, Int.toNat_natCast]
  apply List.map_congr_left
  intro i hi
  simp [Table.create]

theorem occTables_length (c k : Nat) : (occTables c k).length = c := by
  simp [occTables]

theorem occTables_full (c : Nat) : grantFirst (occTables c c) = none := by
  rw [grantFirst_eq_none]
  intro t ht
  simp only [occTables, List.mem_map, List.mem_range] at ht
  obtain ⟨i, hi, rfl⟩ := ht
  show decide (c ≤ i) = false
  simp only [decide_eq_false_iff_not]
  omega

theorem occTables_grant {c k : Nat} (h : k < c) :
    grantFirst (occTables c k) = some (occTables c (k + 1), (k : Int) + 1) := by
  have hget : (occTables c k)[k]? = some ⟨(k : Int) + 1, true⟩ := by
    have hk : k < (occTables c k).length := by rw [occTables_length]; omega
    rw [List.getElem?_eq_getElem hk]
    simp only [occTables, List.getElem_map, List.getElem_range]
    simp
  have hbefore : ∀ j u, j < k → (occTables c k)[j]? = some u → u.isAvailable = false := by
    intro j u hj hu
    have hjc : j < c := by omega
    have hjl : j < (occTables c k).length := by rw [occTables_length]; omega
    rw [List.getElem?_eq_getElem hjl] at hu
    simp only [occTables, List.getElem_map, List.getElem_range] at hu
    rw [← Option.some.inj hu]
    show decide (k ≤ j) = false
    simp only [decide_eq_false_iff_not]
    omega
  have hres := grantFirst_at hget rfl hbefore
  have hlist : (occTables c k).set k (Table.reserve ⟨(k : Int) + 1, true⟩)
      = occTables c (k + 1) := by
    apply List.ext_getElem
    · simp [occTables]
    · intro j hj1 hj2
      rw [List.getElem_set]
      have hjc : j < c := by
        have hh := hj2
        rw [occTables_length] at hh
        exact hh
      by_cases hjk : k = j
      · subst hjk
        rw [if_pos rfl]
        show Table.reserve ⟨(k : Int) + 1, true⟩ = (occTables c (k + 1))[k]
        simp only [occTables, List.getElem_map, List.getElem_range]
        show (⟨(k : Int) + 1, false⟩ : Table) = ⟨(k : Int) + 1, decide (k + 1 ≤ k)⟩
        have hd : decide (k + 1 ≤ k) = false := by
          simp only [decide_eq_false_iff_not]
          omega
        rw [hd]
      · rw [if_neg hjk]
        simp only [occTables, List.getElem_map, List.getElem_range]
        have hd : decide (k ≤ j) = decide (k + 1 ≤ j) := by
          apply decide_eq_decide.mpr
          constructor <;> intro <;> omega
        rw [hd]
  rw [hres, hlist]

theorem runRequests_burst :
    ∀ (cs : List Customer) (cap k : Nat) (act : List Customer),
    k + cs.length ≤ cap →
    runRequests ⟨occTables cap k, act, []⟩ cs =
      (⟨occTables cap (k + cs.length), act ++ cs, []⟩, specRequestOutcomes cap k cs) := by
  intro cs
  induction cs with
  | nil =>
    intro cap k act h
    simp [runRequests, specRequestOutcomes]
  | cons c cs' ih =>
    intro cap k act h
    have hk : k < cap := by
      simp only [List.length_cons] at h
      omega
    have hg : grantFirst (Restaurant.mk (occTables cap k) act []).tables
        = some (occTables cap (k + 1), (k : Int) + 1) := occTables_grant hk
    simp only [runRequests]
    rw [reserveTable_grant hg]
    have hlen : k + 1 + cs'.length ≤ cap := by
      simp only [List.length_cons] at h
      omega
    rw [ih cap (k + 1) (act ++ [c]) hlen]
    have harith : k + 1 + cs'.length = k + (c :: cs').length := by
      simp only [List.length_cons]
      omega
    rw [harith]
    have happ : (act ++ [c]) ++ cs' = act ++ (c :: cs') := by
      simp
    rw [happ]
    have hspec : specRequestOutcomes cap k (c :: cs')
        = (true, [Msg.reserved ((k : Int) + 1) c.name]) :: specRequestOutcomes cap (k + 1) cs' := by
      simp [specRequestOutcomes, hk]
    rw [hspec]

theorem runRequests_append (r : Restaurant) (l1 l2 : List Customer) :
    runRequests r (l1 ++ l2) =
      ((runRequests (runRequests r l1).1 l2).1,
       (runRequests r l1).2 ++ (runRequests (runRequests r l1).1 l2).2) := by
  induction l1 generalizing r with
  | nil => simp [runRequests]
  | cons c cs ih =>
    simp only [List.cons_append, runRequests, List.append_eq]
    rw [ih]

theorem specRequestOutcomes_append (cap : Nat) :
    ∀ (l1 : List Customer) (k : Nat) (l2 : List Customer),
    specRequestOutcomes cap k (l1 ++ l2) =
      specRequestOutcomes cap k l1 ++ specRequestOutcomes cap (k + l1.length) l2 := by
  intro l1
  induction l1 with
  | nil =>
    intro k l2
    simp [specRequestOutcomes]
  | cons c cs ih =>
    intro k l2
    simp only [List.cons_append, specRequestOutcomes, List.append_eq, ih, List.length_cons]
    have harith : k + 1 + cs.length = k + (cs.length + 1) := by omega
    rw [harith]

/-! ## Remaining helpers -/

theorem poolIds_pairwise (n : Nat) : List.Pairwise (· < ·) (poolIds n) := by
  have hr := List.pairwise_lt_range n
  exact List.Pairwise.map (fun i : Nat => (i : Int) + 1)
    (fun a b hab => show (a : Int) + 1 < (b : Int) + 1 by omega) hr

theorem wf_pairwise {r : Restaurant} (h : WellFormedPool r) :
    List.Pairwise (· < ·) (r.tables.map Table.number) := by
  rw [h]
  exact poolIds_pairwise _

theorem grantFirst_min {l : List Table} {i : Nat} {t : Table}
    (hp : List.Pairwise (· < ·) (l.map Table.number))
    (hi : l[i]? = some t)
    (hbefore : ∀ j u, j < i → l[j]? = some u → u.isAvailable = false) :
    ∀ v ∈ l, v.isAvailable = true → t.number ≤ v.number := by
  intro v hv hav
  obtain ⟨j, hj, hjv⟩ := List.mem_iff_getElem.mp hv
  obtain ⟨hi', hit⟩ := List.getElem?_eq_some.mp hi
  rcases Nat.lt_trichotomy j i with hlt | heq | hgt
  · exfalso
    have := hbefore j v hlt (by rw [List.getElem?_eq_getElem hj, hjv])
    rw [hav] at this
    exact Bool.true_eq_false.mp this
  · subst heq
    have : t = v := by rw [← hit, hjv]
    rw [this]
  · have him : i < (l.map Table.number).length := by simpa using hi'
    have hjm : j < (l.map Table.number).length := by simpa using hj
    have hpg := List.pairwise_iff_get.mp hp ⟨i, him⟩ ⟨j, hjm⟩ hgt
    simp only [List.get_eq_getElem, List.getElem_map] at hpg
    rw [hit, hjv] at hpg
    omega

theorem waitlistLines_eq (ext act : List Customer) (l : List Customer) :
    waitlistLines ext act l
      = (l.filter (isLive ext act)).map (fun c => Msg.waitingName c.name) := by
  induction l with
  | nil => rfl
  | cons c cs ih =>
    cases h : isLive ext act c with
    | true => simp [waitlistLines, h, List.filter_cons, ih]
    | false => simp [waitlistLines, h, List.filter_cons, ih]

/-! ## Claim theorems -/

/-- C1: in every reachable allocator state the pool is well-formed, and
`reserveTable` scans the pool in identity order: when some table is free it
grants the first (hence lowest-numbered, the pool being ordered) available
table, marks it occupied, appends the consumer to the holders and reports
`Granted` with that number; when none is free it appends the consumer to the
tail of the queue and reports `Queued`.  Moreover for every capacity `cap ≥ 0`
and any `cap + 1` consumers requesting with no intervening release, the first
`cap` calls return `Granted 1 .. Granted cap` (distinct identities, each the
lowest still available) and the last returns `Queued` with that consumer
appended to the (previously empty) queue. -/
theorem C1_request_grants_lowest_available :
    (∀ (w : World), Reachable w → WellFormedPool w.rest)
    ∧ (∀ (r : Restaurant) (c : Customer), WellFormedPool r →
        (∀ (i : Nat) (t : Table), r.tables[i]? = some t → t.isAvailable = true →
          (∀ j u, j < i → r.tables[j]? = some u → u.isAvailable = false) →
          reserveTable r c =
            (⟨r.tables.set i t.reserve, r.activeCustomers ++ [c], r.waitlist⟩,
             true, [Msg.reserved t.number c.name])
          ∧ ∀ v ∈ r.tables, v.isAvailable = true → t.number ≤ v.number)
        ∧ ((∀ t ∈ r.tables, t.isAvailable = false) →
          reserveTable r c =
            (⟨r.tables, r.activeCustomers, r.waitlist ++ [c]⟩, false,
             [Msg.noTablesFree c.name])))
    ∧ (∀ (cap : Nat) (cs : List Customer), cs.length = cap + 1 →
        (runRequests (mkRestaurant (cap : Int)) cs).2 = specRequestOutcomes cap 0 cs
        ∧ (runRequests (mkRestaurant (cap : Int)) cs).1.waitlist = cs.drop cap) := by
  refine ⟨?_, ?_, ?_⟩
  · intro w hw
    exact (reachable_inv hw).wf
  · intro r c hwf
    constructor
    · intro i t hi hav hbefore
      have hg := grantFirst_at hi hav hbefore
      exact ⟨reserveTable_grant hg, grantFirst_min (wf_pairwise hwf) hi hbefore⟩
    · intro hall
      exact reserveTable_queue (grantFirst_eq_none.mpr hall)
  · intro cap cs hlen
    have hdlen : (cs.drop cap).length = 1 := by
      rw [List.length_drop, hlen]
      omega
    obtain ⟨cl, hcl⟩ := List.length_eq_one.mp hdlen
    have htklen : (cs.take cap).length = cap := by
      rw [List.length_take, hlen]
      omega
    have hstate : mkRestaurant (cap : Int) = ⟨occTables cap 0, [], []⟩ := by
      rw [← mkRestaurant_tables_nat cap]
      rfl
    have hburst := runRequests_burst (cs.take cap) cap 0 [] (by rw [htklen]; omega)
    rw [htklen, Nat.zero_add, List.nil_append] at hburst
    have hqueue : runRequests ⟨occTables cap cap, cs.take cap, []⟩ [cl]
        = (⟨occTables cap cap, cs.take cap, [cl]⟩,
           [(false, [Msg.noTablesFree cl.name])]) := by
      simp only [runRequests]
      rw [reserveTable_queue (occTables_full cap)]
      rfl
    have hall : runRequests (mkRestaurant (cap : Int)) cs
        = (⟨occTables cap cap, cs.take cap, [cl]⟩,
           specRequestOutcomes cap 0 (cs.take cap)
             ++ [(false, [Msg.noTablesFree cl.name])]) := by
      conv_lhs => rw [hstate, ← List.take_append_drop cap cs, hcl]
      rw [runRequests_append, hburst, hqueue]
    constructor
    · rw [hall]
      conv_rhs => rw [← List.take_append_drop cap cs, hcl]
      rw [specRequestOutcomes_append, htklen, Nat.zero_add]
      have hlast : specRequestOutcomes cap cap [cl]
          = [(false, [Msg.noTablesFree cl.name])] := by
        simp [specRequestOutcomes]
      rw [hlast]
    · rw [hall, hcl]

/-- C1 witness: the general statement applied to capacity 2 with three concrete
customers, and the single-table scan at a concrete state. -/
theorem C1_request_grants_lowest_available_witness :
    WellFormedPool (mkRestaurant 2)
    ∧ reserveTable ⟨[⟨1, true⟩], [], []⟩ ⟨0, "A"⟩
        = (⟨[⟨1, false⟩], [⟨0, "A"⟩], []⟩, true, [Msg.reserved 1 "A"])
    ∧ (runRequests (mkRestaurant (2 : Nat))
        [⟨0, "A"⟩, ⟨1, "B"⟩, ⟨2, "C"⟩]).2
        = specRequestOutcomes 2 0 [⟨0, "A"⟩, ⟨1, "B"⟩, ⟨2, "C"⟩]
    ∧ (runRequests (mkRestaurant (2 : Nat))
        [⟨0, "A"⟩, ⟨1, "B"⟩, ⟨2, "C"⟩]).1.waitlist
        = [⟨2, "C"⟩] := by
  refine ⟨?_, ?_, ?_, ?_⟩
  · exact C1_request_grants_lowest_available.1 ⟨[], mkRestaurant 2, 0⟩ (Reachable.init 2)
  · exact (((C1_request_grants_lowest_available.2.1 ⟨[⟨1, true⟩], [], []⟩ ⟨0, "A"⟩
      (by rfl)).1 0 ⟨1, true⟩ rfl rfl
      (fun j u hj hu => absurd hj (Nat.not_lt_zero j))).1)
  · exact (C1_request_grants_lowest_available.2.2 2
      [⟨0, "A"⟩, ⟨1, "B"⟩, ⟨2, "C"⟩] rfl).1
  · exact (C1_request_grants_lowest_available.2.2 2
      [⟨0, "A"⟩, ⟨1, "B"⟩, ⟨2, "C"⟩] rfl).2

/-- C2 counterexample: capacity 1, customer A granted table 1, then
`releaseTable 1`.  The table is freed, but A — the former holder — is NOT
removed from `activeCustomers` (the source keeps no per-table holder
association and `releaseTable` never erases from `activeCustomers`), so the
claim's "its former holder is removed from the holders collection" is false. -/
theorem C2_counterexample :
    (releaseTable [⟨0, "A"⟩] ((reserveTable (mkRestaurant 1) ⟨0, "A"⟩).1) 1).1.activeCustomers
      = [⟨0, "A"⟩]
    ∧ (releaseTable [⟨0, "A"⟩] ((reserveTable (mkRestaurant 1) ⟨0, "A"⟩).1) 1).1.tables
      = [⟨1, true⟩] := by
  exact ⟨rfl, rfl⟩

/-- C2 (amended): releasing an occupied resource marks it free and then invokes
waitlist reprocessing, but the former holder is NOT removed — the holders
collection only ever grows across a release. -/
theorem C2_release_frees_then_reprocesses_holder_kept
    (ext : List Customer) (r : Restaurant) (n : Int) (i : Nat) (t : Table)
    (hnd : (r.tables.map Table.number).Nodup)
    (hi : r.tables[i]? = some t) (hn : t.number = n) (hocc : t.isAvailable = false) :
    releaseTable ext r n =
      ((notifyWaitlist ext ⟨r.tables.set i t.free, r.activeCustomers, r.waitlist⟩).1,
       Msg.released n ::
         (notifyWaitlist ext ⟨r.tables.set i t.free, r.activeCustomers, r.waitlist⟩).2)
    ∧ ∃ ex, (releaseTable ext r n).1.activeCustomers = r.activeCustomers ++ ex := by
  have heq := @releaseTable_found_occupied ext r n i t hnd hi hn hocc
  refine ⟨heq, ?_⟩
  rw [heq]
  exact notifyWaitlist_active ext ⟨r.tables.set i t.free, r.activeCustomers, r.waitlist⟩

/-- C2 witness: the amended statement evaluated at capacity 1 with table 1
occupied and an empty queue. -/
theorem C2_release_frees_then_reprocesses_holder_kept_witness :
    releaseTable [] (⟨[⟨1, false⟩], [⟨0, "A"⟩], []⟩ : Restaurant) 1 =
      ((notifyWaitlist [] ⟨[⟨1, false⟩].set 0 (Table.free ⟨1, false⟩), [⟨0, "A"⟩], []⟩).1,
       Msg.released 1 ::
         (notifyWaitlist [] ⟨[⟨1, false⟩].set 0 (Table.free ⟨1, false⟩), [⟨0, "A"⟩], []⟩).2)
    ∧ ∃ ex, (releaseTable [] (⟨[⟨1, false⟩], [⟨0, "A"⟩], []⟩ : Restaurant) 1).1.activeCustomers
      = [⟨0, "A"⟩] ++ ex :=
  C2_release_frees_then_reprocesses_holder_kept [] ⟨[⟨1, false⟩], [⟨0, "A"⟩], []⟩ 1 0
    ⟨1, false⟩ (by decide) rfl rfl rfl

/-- C3 counterexample: the world reached by capacity 1; create A, B; A
requests (granted); release table 1; B requests (granted).  It is reachable
and its holders collection has 2 entries while the pool has 1 table, refuting
the claimed invariant `|holders| ≤ |pool|` (and with it the conjunction). -/
theorem C3_counterexample :
    Reachable ⟨[⟨0, "A"⟩, ⟨1, "B"⟩], ⟨[⟨1, false⟩], [⟨0, "A"⟩, ⟨1, "B"⟩], []⟩, 2⟩
    ∧ ¬ ((⟨[⟨1, false⟩], [⟨0, "A"⟩, ⟨1, "B"⟩], []⟩ : Restaurant).activeCustomers.length
        ≤ (⟨[⟨1, false⟩], [⟨0, "A"⟩, ⟨1, "B"⟩], []⟩ : Restaurant).tables.length) := by
  constructor
  · have h0 := Reachable.init 1
    have h1 := Reachable.create ⟨[], mkRestaurant 1, 0⟩ "A" h0
    have h2 := Reachable.create ⟨[⟨0, "A"⟩], mkRestaurant 1, 1⟩ "B" h1
    have h3 := Reachable.request ⟨[⟨0, "A"⟩, ⟨1, "B"⟩], mkRestaurant 1, 2⟩ ⟨0, "A"⟩ h2
      (List.mem_cons_self _ _)
    have h4 := Reachable.release
      ⟨[⟨0, "A"⟩, ⟨1, "B"⟩], ⟨[⟨1, false⟩], [⟨0, "A"⟩], []⟩, 2⟩ 1 h3
    have h5 := Reachable.request
      ⟨[⟨0, "A"⟩, ⟨1, "B"⟩], ⟨[⟨1, true⟩], [⟨0, "A"⟩], []⟩, 2⟩ ⟨1, "B"⟩ h4
      (List.mem_cons_of_mem _ (List.mem_cons_self _ _))
    exact h5
  · decide

/-- C3 (amended): the reachable-state invariant that actually holds is that
the number of occupied resources never exceeds the number of holders; the
claimed bound `|holders| ≤ |pool|` fails because release never removes
holders, and "occupied iff it currently has a holder" is not expressible —
the code keeps no holder-to-resource association. -/
theorem C3_occupied_le_holders (w : World) (hw : Reachable w) :
    occupiedCount w.rest ≤ w.rest.activeCustomers.length :=
  (reachable_inv hw).occLe

/-- C3 witness: the amended invariant at the freshly constructed world. -/
theorem C3_occupied_le_holders_witness :
    occupiedCount (⟨[], mkRestaurant 1, 0⟩ : World).rest
      ≤ (⟨[], mkRestaurant 1, 0⟩ : World).rest.activeCustomers.length :=
  C3_occupied_le_holders ⟨[], mkRestaurant 1, 0⟩ (Reachable.init 1)

/-- C4 counterexample: the world reached by capacity 1; create A, B; A granted;
B queued; the application drops B (the head's consumer no longer exists).
Releasing table 1 then leaves the dead head entry IN the queue — it is not
discarded, refuting "waitlist reprocessing discards that head entry". -/
theorem C4_counterexample :
    Reachable ⟨[⟨0, "A"⟩], ⟨[⟨1, false⟩], [⟨0, "A"⟩], [⟨1, "B"⟩]⟩, 2⟩
    ∧ (releaseTable [⟨0, "A"⟩] (⟨[⟨1, false⟩], [⟨0, "A"⟩], [⟨1, "B"⟩]⟩ : Restaurant) 1).1.waitlist
      = [⟨1, "B"⟩] := by
  constructor
  · have h0 := Reachable.init 1
    have h1 := Reachable.create ⟨[], mkRestaurant 1, 0⟩ "A" h0
    have h2 := Reachable.create ⟨[⟨0, "A"⟩], mkRestaurant 1, 1⟩ "B" h1
    have h3 := Reachable.request ⟨[⟨0, "A"⟩, ⟨1, "B"⟩], mkRestaurant 1, 2⟩ ⟨0, "A"⟩ h2
      (List.mem_cons_self _ _)
    have h4 := Reachable.request
      ⟨[⟨0, "A"⟩, ⟨1, "B"⟩], ⟨[⟨1, false⟩], [⟨0, "A"⟩], []⟩, 2⟩ ⟨1, "B"⟩ h3
      (List.mem_cons_of_mem _ (List.mem_cons_self _ _))
    have h5 := Reachable.drop
      ⟨[⟨0, "A"⟩, ⟨1, "B"⟩], ⟨[⟨1, false⟩], [⟨0, "A"⟩], [⟨1, "B"⟩]⟩, 2⟩ 1 h4
    exact h5
  · rfl

/-- C4 (amended): releasing an occupied resource while the queue's head
consumer is dead frees only that resource; no grant happens, nothing crashes,
and the queue — stale head included — and the holders are left exactly as they
were. -/
theorem C4_dead_head_release (ext : List Customer) (r : Restaurant) (n : Int)
    (i : Nat) (t : Table) (c : Customer) (cs : List Customer)
    (hnd : (r.tables.map Table.number).Nodup)
    (hi : r.tables[i]? = some t) (hn : t.number = n) (hocc : t.isAvailable = false)
    (hwl : r.waitlist = c :: cs) (hdead : isLive ext r.activeCustomers c = false) :
    releaseTable ext r n
      = (⟨r.tables.set i t.free, r.activeCustomers, c :: cs⟩, [Msg.released n]) := by
  rw [releaseTable_found_occupied hnd hi hn hocc]
  rw [@notifyWaitlist_dead ext ⟨r.tables.set i t.free, r.activeCustomers, r.waitlist⟩
    c cs hwl hdead]
  rw [hwl]

/-- C4 witness: the amended statement evaluated with one occupied table and a
dead queue head. -/
theorem C4_dead_head_release_witness :
    releaseTable [] (⟨[⟨1, false⟩], [], [⟨5, "B"⟩]⟩ : Restaurant) 1
      = (⟨[⟨1, false⟩].set 0 (Table.free ⟨1, false⟩), [], [⟨5, "B"⟩]⟩,
         [Msg.released 1]) :=
  C4_dead_head_release [] ⟨[⟨1, false⟩], [], [⟨5, "B"⟩]⟩ 1 0 ⟨1, false⟩ ⟨5, "B"⟩ []
    (by decide) rfl rfl rfl rfl rfl

/-- C5: in every reachable state, releasing an occupied resource while the
queue is non-empty with a live head grants that head the just-freed number
before the release returns: the output carries `Granted n` for the head, the
pool ends exactly as it started (the freed table is re-occupied), the head is
appended to the holders, and the waitlist becomes `removeElement` of the old
one — whose result is always a sublist of the entries that stood behind the
head, so the head's own entry is removed from the queue.  (With duplicate
entries in the queue, `removeElement`'s aliased `remove_if` may keep a later
duplicate of the head and drop duplicates of the first survivor; the equation
below reflects that behaviour exactly.) -/
theorem C5_release_grants_live_head (w : World) (hw : Reachable w) (n : Int)
    (i : Nat) (t : Table) (c : Customer) (cs : List Customer)
    (hi : w.rest.tables[i]? = some t) (hn : t.number = n)
    (hocc : t.isAvailable = false)
    (hwl : w.rest.waitlist = c :: cs)
    (hlive : isLive w.ext w.rest.activeCustomers c = true) :
    releaseTable w.ext w.rest n =
      (⟨w.rest.tables, w.rest.activeCustomers ++ [c], removeElement (c :: cs)⟩,
       [Msg.released n, Msg.reserved n c.name])
    ∧ List.Sublist (removeElement (c :: cs)) cs := by
  have hinv := reachable_inv hw
  have hall := hinv.headLive c cs hwl hlive
  have hnd := wf_nodup hinv.wf
  refine ⟨?_, removeElement_sublist_tail c cs⟩
  rw [@releaseTable_found_occupied w.ext w.rest n i t hnd hi hn hocc]
  have hg : grantFirst (w.rest.tables.set i t.free) = some (w.rest.tables, t.number) :=
    grantFirst_all_occupied_set hall hi
  rw [@notifyWaitlist_grant w.ext
    ⟨w.rest.tables.set i t.free, w.rest.activeCustomers, w.rest.waitlist⟩
    c cs w.rest.tables t.number hwl hlive hg]
  rw [hn]

/-- C5 witness: capacity 1; A holds table 1; live B queued; releasing table 1
grants B the just-freed table 1, moves B into the holders and empties the
queue. -/
theorem C5_release_grants_live_head_witness :
    (releaseTable [⟨0, "A"⟩, ⟨1, "B"⟩]
        (⟨[⟨1, false⟩], [⟨0, "A"⟩], [⟨1, "B"⟩]⟩ : Restaurant) 1 =
      (⟨[⟨1, false⟩], [⟨0, "A"⟩, ⟨1, "B"⟩], []⟩,
       [Msg.released 1, Msg.reserved 1 "B"]))
    ∧ List.Sublist (removeElement [⟨1, "B"⟩]) [] := by
  have h0 := Reachable.init 1
  have h1 := Reachable.create ⟨[], mkRestaurant 1, 0⟩ "A" h0
  have h2 := Reachable.create ⟨[⟨0, "A"⟩], mkRestaurant 1, 1⟩ "B" h1
  have h3 := Reachable.request ⟨[⟨0, "A"⟩, ⟨1, "B"⟩], mkRestaurant 1, 2⟩ ⟨0, "A"⟩ h2
    (List.mem_cons_self _ _)
  have h4 := Reachable.request
    ⟨[⟨0, "A"⟩, ⟨1, "B"⟩], ⟨[⟨1, false⟩], [⟨0, "A"⟩], []⟩, 2⟩ ⟨1, "B"⟩ h3
    (List.mem_cons_of_mem _ (List.mem_cons_self _ _))
  exact C5_release_grants_live_head
    ⟨[⟨0, "A"⟩, ⟨1, "B"⟩], ⟨[⟨1, false⟩], [⟨0, "A"⟩], [⟨1, "B"⟩]⟩, 2⟩ h4
    1 0 ⟨1, false⟩ ⟨1, "B"⟩ [] rfl rfl rfl rfl (by decide)

/-- C6 counterexample: releasing an identity outside the pool (capacity 1,
id 5) returns normally with the state unchanged and no report at all — the
source has no error path, so no `UnknownResourceError` failure occurs. -/
theorem C6_counterexample :
    releaseTable [] (mkRestaurant 1) 5 = (mkRestaurant 1, []) := by
  rfl

/-- C6 (amended): a release whose id matches no table in the pool is a silent
no-op: the loop finds no match, the state is unchanged, nothing is reported
and no error is raised (the code has no UnknownResourceError or any other
failure mechanism). -/
theorem C6_unknown_id_silent_noop (ext : List Customer) (r : Restaurant) (n : Int)
    (h : ∀ t ∈ r.tables, t.number ≠ n) :
    releaseTable ext r n = (r, []) :=
  releaseTable_no_match h

/-- C6 witness: the amended statement evaluated at capacity 2 and id 7. -/
theorem C6_unknown_id_silent_noop_witness :
    releaseTable [] (mkRestaurant 2) 7 = (mkRestaurant 2, []) :=
  C6_unknown_id_silent_noop [] (mkRestaurant 2) 7 (by decide)

/-- C7 counterexample: capacity 1; A holds table 1; live B queued (a reachable
state).  `releaseTable 1` re-grants table 1 to B during waitlist reprocessing,
so the immediately following `releaseTable 1` finds the table occupied again
and releases it once more — it reports `Released`, not `AlreadyFree`,
refuting the claim for this resourceId. -/
theorem C7_counterexample :
    Reachable ⟨[⟨0, "A"⟩, ⟨1, "B"⟩], ⟨[⟨1, false⟩], [⟨0, "A"⟩], [⟨1, "B"⟩]⟩, 2⟩
    ∧ (releaseTable [⟨0, "A"⟩, ⟨1, "B"⟩]
        (releaseTable [⟨0, "A"⟩, ⟨1, "B"⟩]
          (⟨[⟨1, false⟩], [⟨0, "A"⟩], [⟨1, "B"⟩]⟩ : Restaurant) 1).1 1).2
      = [Msg.released 1]
    ∧ (releaseTable [⟨0, "A"⟩, ⟨1, "B"⟩]
        (releaseTable [⟨0, "A"⟩, ⟨1, "B"⟩]
          (⟨[⟨1, false⟩], [⟨0, "A"⟩], [⟨1, "B"⟩]⟩ : Restaurant) 1).1 1).2
      ≠ [Msg.alreadyFree 1] := by
  refine ⟨?_, rfl, by decide⟩
  have h0 := Reachable.init 1
  have h1 := Reachable.create ⟨[], mkRestaurant 1, 0⟩ "A" h0
  have h2 := Reachable.create ⟨[⟨0, "A"⟩], mkRestaurant 1, 1⟩ "B" h1
  have h3 := Reachable.request ⟨[⟨0, "A"⟩, ⟨1, "B"⟩], mkRestaurant 1, 2⟩ ⟨0, "A"⟩ h2
    (List.mem_cons_self _ _)
  have h4 := Reachable.request
    ⟨[⟨0, "A"⟩, ⟨1, "B"⟩], ⟨[⟨1, false⟩], [⟨0, "A"⟩], []⟩, 2⟩ ⟨1, "B"⟩ h3
    (List.mem_cons_of_mem _ (List.mem_cons_self _ _))
  exact h4

/-- C7 (amended): for an occupied resource, provided the queue is empty or its
head consumer is dead (so reprocessing cannot re-grant the freed resource),
release followed immediately by release of the same identity has the first
call free the resource reporting `Released`, and the second report
`AlreadyFree` without error, change no state, and trigger no reprocessing. -/
theorem C7_double_release (ext : List Customer) (r : Restaurant) (n : Int)
    (i : Nat) (t : Table)
    (hnd : (r.tables.map Table.number).Nodup)
    (hi : r.tables[i]? = some t) (hn : t.number = n) (hocc : t.isAvailable = false)
    (hq : r.waitlist = []
      ∨ ∃ (c : Customer) (cs : List Customer),
          r.waitlist = c :: cs ∧ isLive ext r.activeCustomers c = false) :
    releaseTable ext r n
      = (⟨r.tables.set i t.free, r.activeCustomers, r.waitlist⟩, [Msg.released n])
    ∧ releaseTable ext (releaseTable ext r n).1 n
      = ((releaseTable ext r n).1, [Msg.alreadyFree n]) := by
  have hfirst : releaseTable ext r n
      = (⟨r.tables.set i t.free, r.activeCustomers, r.waitlist⟩, [Msg.released n]) := by
    rw [@releaseTable_found_occupied ext r n i t hnd hi hn hocc]
    rcases hq with hq | ⟨c, cs, hwl, hdead⟩
    · rw [@notifyWaitlist_nil ext
        ⟨r.tables.set i t.free, r.activeCustomers, r.waitlist⟩ hq]
    · rw [@notifyWaitlist_dead ext
        ⟨r.tables.set i t.free, r.activeCustomers, r.waitlist⟩ c cs hwl hdead]
  refine ⟨hfirst, ?_⟩
  rw [hfirst]
  have hi' : i < r.tables.length := (List.getElem?_eq_some.mp hi).1
  have hnd2 : (((r.tables.set i t.free)).map Table.number).Nodup := by
    rw [set_free_map_number hi]
    exact hnd
  have hi2 : (r.tables.set i t.free)[i]? = some t.free := by
    rw [List.getElem?_set_self]
    simpa using hi'
  exact @releaseTable_found_free ext
    ⟨r.tables.set i t.free, r.activeCustomers, r.waitlist⟩ n i t.free hnd2 hi2 hn rfl

/-- C7 witness: the amended statement evaluated at capacity 1 with table 1
occupied and an empty queue. -/
theorem C7_double_release_witness :
    releaseTable [] (⟨[⟨1, false⟩], [⟨0, "A"⟩], []⟩ : Restaurant) 1
      = (⟨[⟨1, false⟩].set 0 (Table.free ⟨1, false⟩), [⟨0, "A"⟩], []⟩,
         [Msg.released 1])
    ∧ releaseTable []
        (releaseTable [] (⟨[⟨1, false⟩], [⟨0, "A"⟩], []⟩ : Restaurant) 1).1 1
      = ((releaseTable [] (⟨[⟨1, false⟩], [⟨0, "A"⟩], []⟩ : Restaurant) 1).1,
         [Msg.alreadyFree 1]) :=
  C7_double_release [] ⟨[⟨1, false⟩], [⟨0, "A"⟩], []⟩ 1 0 ⟨1, false⟩
    (by decide) rfl rfl rfl (Or.inl rfl)

/-- C8 counterexample: constructing with capacity -1 does not fail — the
constructor's loop simply never runs, yielding the very same empty allocator
as capacity 0; no `InvalidCapacityError` (or any error path) exists in the
source. -/
theorem C8_counterexample :
    mkRestaurant (-1) = mkRestaurant 0 ∧ (mkRestaurant (-1)).tables = [] := by
  exact ⟨rfl, rfl⟩

/-- C8 (amended): capacity `c` builds tables with sequential identities
`1..c` (clamped at 0) with holders and queue initially empty; a negative
capacity does not fail with `InvalidCapacityError` — construction succeeds and
yields the empty pool of capacity 0, an allocator that always queues. -/
theorem C8_construction (cap : Int) :
    (mkRestaurant cap).tables.map Table.number = poolIds cap.toNat
    ∧ (mkRestaurant cap).activeCustomers = []
    ∧ (mkRestaurant cap).waitlist = []
    ∧ (cap < 0 → mkRestaurant cap = mkRestaurant 0) := by
  refine ⟨?_, rfl, rfl, ?_⟩
  · simp only [mkRestaurant, poolIds, List.map_map]
    rfl
  · intro h
    have hz : cap.toNat = 0 := by omega
    simp [mkRestaurant, hz]

/-- C8 witness: the amended statement evaluated at capacity -3. -/
theorem C8_construction_witness :
    (mkRestaurant (-3)).tables.map Table.number = poolIds (Int.toNat (-3))
    ∧ (mkRestaurant (-3)).activeCustomers = []
    ∧ (mkRestaurant (-3)).waitlist = []
    ∧ mkRestaurant (-3) = mkRestaurant 0 :=
  ⟨(C8_construction (-3)).1, (C8_construction (-3)).2.1, (C8_construction (-3)).2.2.1,
   (C8_construction (-3)).2.2.2 (by decide)⟩

/-- C9 counterexample: capacity 1; create A; A requests (granted); A requests
again (queued, since the table is occupied and the code performs no membership
check).  The resulting reachable state has A simultaneously in the holders
collection and in the queue, refuting the claimed exclusivity invariant. -/
theorem C9_counterexample :
    Reachable ⟨[⟨0, "A"⟩], ⟨[⟨1, false⟩], [⟨0, "A"⟩], [⟨0, "A"⟩]⟩, 1⟩
    ∧ (⟨0, "A"⟩ : Customer)
        ∈ (⟨[⟨1, false⟩], [⟨0, "A"⟩], [⟨0, "A"⟩]⟩ : Restaurant).activeCustomers
    ∧ (⟨0, "A"⟩ : Customer)
        ∈ (⟨[⟨1, false⟩], [⟨0, "A"⟩], [⟨0, "A"⟩]⟩ : Restaurant).waitlist := by
  refine ⟨?_, List.mem_cons_self _ _, List.mem_cons_self _ _⟩
  have h0 := Reachable.init 1
  have h1 := Reachable.create ⟨[], mkRestaurant 1, 0⟩ "A" h0
  have h2 := Reachable.request ⟨[⟨0, "A"⟩], mkRestaurant 1, 1⟩ ⟨0, "A"⟩ h1
    (List.mem_cons_self _ _)
  have h3 := Reachable.request ⟨[⟨0, "A"⟩], ⟨[⟨1, false⟩], [⟨0, "A"⟩], []⟩, 1⟩
    ⟨0, "A"⟩ h2 (List.mem_cons_self _ _)
  exact h3

/-- C9 (amended): what the code guarantees is per-call: each `reserveTable`
call adds the consumer to exactly one of the two collections — holders when
granted, the queue when queued — and leaves the other untouched.  No global
exclusivity across calls is enforced, so a consumer can come to appear in both
collections (and repeatedly in each). -/
theorem C9_request_adds_to_exactly_one_side (r : Restaurant) (c : Customer) :
    (reserveTable r c).1.activeCustomers
      = (if (reserveTable r c).2.1 then r.activeCustomers ++ [c] else r.activeCustomers)
    ∧ (reserveTable r c).1.waitlist
      = (if (reserveTable r c).2.1 then r.waitlist else r.waitlist ++ [c]) := by
  cases hg : grantFirst r.tables with
  | some p =>
    obtain ⟨ts', n⟩ := p
    rw [reserveTable_grant hg]
    simp
  | none =>
    rw [reserveTable_queue hg]
    simp

/-- C10: `printWaitlist` emits the header and then the names of exactly the
still-live queue entries in queue order (dead entries are skipped, not
pruned); it never mutates the allocator, so calling it twice in a row with no
intervening mutation returns the same sequence both times. -/
theorem C10_printWaitlist_live_names_idempotent (ext : List Customer) (r : Restaurant) :
    (printWaitlist ext r).2
      = Msg.waitlistHeader ::
          (r.waitlist.filter (isLive ext r.activeCustomers)).map
            (fun c => Msg.waitingName c.name)
    ∧ (printWaitlist ext ((printWaitlist ext r).1)).2 = (printWaitlist ext r).2
    ∧ (printWaitlist ext r).1 = r := by
  refine ⟨?_, rfl, rfl⟩
  show Msg.waitlistHeader :: waitlistLines ext r.activeCustomers r.waitlist = _
  rw [waitlistLines_eq]
